import Mathlib

/-!
Shallow embedding of the `dtools.queues.splitends` subpackage
(`splitend_node.py` and `splitend.py`).

A `_SENode` is an immutable cell holding one datum and a maybe-reference
(`MB`) to a predecessor cell.  Python object identity is modelled by
addresses into an allocation-ordered heap: the heap is a list of cells,
allocation appends a cell at the end, and a cell's predecessor field can
only name a previously allocated cell (the Python code assigns `_prev`
exactly once, at construction, from an already existing node).  `MB` of
the external `dtools.fp` library is modelled by `Option`: `MB()` is
`none`, and `MB().get()` with no alternate raises `ValueError`, so every
code path that can reach such a `get`, or that raises explicitly, is
embedded with an `Option` result in which `none` is the raised error.
-/

namespace Splitends

/-- The node store: address `i` holds `(data, prev address)`.  One cell per
`_SENode` object, in allocation order. -/
abbrev Heap (D : Type) := List (D × Option Nat)

/-- A predecessor reference must name a cell allocated strictly earlier. -/
def prevOk (i : Nat) : Option Nat → Bool
  | none => true
  | some p => decide (p < i)

/-- Heap well-formedness, executable form: every cell's predecessor was
allocated before the cell itself.  Every heap the operations build
satisfies this, since `_prev` is assigned only at construction. -/
def Heap.wf {D : Type} (h : Heap D) : Bool :=
  (List.range h.length).all fun i =>
    match h[i]? with
    | none => true
    | some c => prevOk i c.2

/-- Heap well-formedness, propositional form. -/
def Heap.WFp {D : Type} (h : Heap D) : Prop :=
  ∀ (i : Nat) (d : D) (p : Nat), h[i]? = some (d, some p) → p < i

namespace SENode

/-- Embeds `_SENode.__iter__`: yield the data of this node and of every node below
it, down to and including the bottom node.  The guard `p < a` is the
allocation-order invariant on predecessor links; in a well-formed heap it
always holds, and the `else` branches are unreachable. -/
def toList {D : Type} (h : Heap D) (a : Nat) : List D :=
  match h[a]? with
  | none => []
  | some (d, none) => [d]
  | some (d, some p) => if _ : p < a then d :: toList h p else [d]
termination_by a

/-- Embeds `_SENode.data_eq`: identity short-circuit, then value equality.  For
Lean values identity implies equality, so both tests collapse into one
decidable equality. -/
def dataEq {D : Type} [DecidableEq D] (d1 d2 : D) : Bool :=
  d1 = d2

/-- The `while node:` loop of `_SENode.fold` together with the trailing
unconditional `acc = f(acc, node._data)` applied to the bottom node:
starting at node `a` with accumulator `acc`, combine each node's data while
the node has a predecessor, then combine the bottom node's data once.
`none` is a dangling address (unreachable in a well-formed heap). -/
def foldLoop {D T : Type} (h : Heap D) (f : T → D → T) (acc : T) (a : Nat) : Option T :=
  match h[a]? with
  | none => none
  | some (d, none) => some (f acc d)
  | some (d, some p) => if _ : p < a then foldLoop h f (f acc d) p else none
termination_by a

/-- Embeds `_SENode.fold(f, init)` on the `init is not None` path: the initial
value seeds the accumulator and the loop starts at this node. -/
def foldInit {D T : Type} (h : Heap D) (f : T → D → T) (a : Nat) (t : T) : Option T :=
  foldLoop h f t a

/-- Embeds `_SENode.fold(f)` on the `init is None` path: `acc = cast(T, self._data)`
seeds the accumulator with the node's own data — only type-sound when the
accumulator type is the data type — and the walk starts at
`self._prev.get()`, which raises `ValueError` when this node is a bottom
node (its `_prev` is the empty `MB`), embedded as `none`. -/
def foldNone {D : Type} (h : Heap D) (f : D → D → D) (a : Nat) : Option D :=
  match h[a]? with
  | none => none
  | some (_, none) => none
  | some (d, some q) => foldLoop h f d q

/-- Embeds `_SENode.pop2`: the data in the head and the potential tail. -/
def pop2 {D : Type} (h : Heap D) (a : Nat) : Option (D × Option Nat) :=
  h[a]?

end SENode

/-- Data hanging from an optional node reference (`[]` for the empty `MB`);
the sequence `SplitEnd.__iter__` produces from its `_top` field. -/
def chainOf {D : Type} (h : Heap D) : Option Nat → List D
  | none => []
  | some a => SENode.toList h a

/-- The fields of a `SplitEnd` handle: `_count`, `_top`, `_root`. -/
structure SplitEnd (D : Type) where
  count : Nat
  top : Option Nat
  root : Option Nat
deriving Repr, DecidableEq

namespace SplitEnd

/-- The `for d in ds[1:]` loops shared by `SplitEnd.__init__` and
`SplitEnd.push`: allocate a node whose predecessor is the current top,
move the top to it, and bump the count. -/
def pushLoop {D : Type} (h : Heap D) (top : Option Nat) (count : Nat) :
    List D → Heap D × Option Nat × Nat
  | [] => (h, top, count)
  | d :: ds => pushLoop (h ++ [(d, top)]) (some h.length) (count + 1) ds

/-- Embeds `SplitEnd.__init__(*ds)`: start empty; when values are given, the first
node gets an empty predecessor and becomes both `_root` and `_top`, then
the remaining values are pushed oldest-first. -/
def init {D : Type} (h : Heap D) (ds : List D) : Heap D × SplitEnd D :=
  match ds with
  | [] => (h, ⟨0, none, none⟩)
  | d :: ds =>
    let a := h.length
    let h1 := h ++ [(d, none)]
    let r := pushLoop h1 (some a) 1 ds
    (r.1, ⟨r.2.2, r.2.1, some a⟩)

/-- Embeds `SplitEnd.push(*ds)`: no values is a no-op; otherwise the first new node
points at the current top, and when the handle was empty the new node also
becomes `_root` with the count reset to 1. -/
def push {D : Type} (h : Heap D) (s : SplitEnd D) (ds : List D) : Heap D × SplitEnd D :=
  match ds with
  | [] => (h, s)
  | d :: ds =>
    let a := h.length
    let h1 := h ++ [(d, s.top)]
    match s.top with
    | some _ =>
      let r := pushLoop h1 (some a) (s.count + 1) ds
      (r.1, ⟨r.2.2, r.2.1, s.root⟩)
    | none =>
      let r := pushLoop h1 (some a) 1 ds
      (r.1, ⟨r.2.2, r.2.1, some a⟩)

/-- Embeds `SplitEnd.pop`: when `_count > 0`, split the top node via `pop2`,
decrement the count, and when the count reaches zero also reset `_root` to
the (now empty) top; on an empty handle return the empty `MB` and leave the
state alone.  The outer `none` is the raise of `self._top.get()` when
`_count > 0` but `_top` is the empty `MB` (unreachable in well-formed
states), or a dangling address. -/
def pop {D : Type} (h : Heap D) (s : SplitEnd D) : Option (Option D × SplitEnd D) :=
  if s.count > 0 then
    match s.top with
    | none => none
    | some a =>
      match SENode.pop2 h a with
      | none => none
      | some (d, p) =>
        let c := s.count - 1
        some (some d, ⟨c, p, if c = 0 then p else s.root⟩)
  else
    some (none, s)

/-- Embeds `SplitEnd.peak(default)`: on an empty handle, return the caller's
default when one was supplied, else raise `ValueError` (embedded as
`none`); otherwise return the top node's data without any mutation. -/
def peak {D : Type} (h : Heap D) (s : SplitEnd D) (default : Option D) : Option D :=
  if s.count = 0 then
    match default with
    | none => none
    | some d => some d
  else
    match s.top with
    | none => none
    | some a =>
      match h[a]? with
      | none => none
      | some (d, _) => some d

/-- Embeds `SplitEnd.copy`: build `se = SplitEnd()` and then assign only `se._top`
and `se._count` from the original; the heap is untouched. -/
def copy {D : Type} (h : Heap D) (s : SplitEnd D) : Heap D × SplitEnd D :=
  let r := init h []
  (r.1, { r.2 with top := s.top, count := s.count })

/-- Embeds `SplitEnd.fold(f, init)` with an initial value: delegate to the top
node when `_top` is not the empty `MB`, else return the initial value. -/
def foldInit {D T : Type} (h : Heap D) (f : T → D → T) (s : SplitEnd D) (t : T) : Option T :=
  match s.top with
  | some a => SENode.foldInit h f a t
  | none => some t

/-- Embeds `SplitEnd.fold(f)` with no initial value: delegate to the top node when
`_top` is not the empty `MB`, else raise `ValueError` (embedded as `none`,
message `SE: Folding empty SplitEnd but no initial value supplied`). -/
def foldNone {D : Type} (h : Heap D) (f : D → D → D) (s : SplitEnd D) : Option D :=
  match s.top with
  | some a => SENode.foldNone h f a
  | none => none

/-- Embeds `SplitEnd.__iter__`: empty sequence on an empty `_top`, else the top
node's iteration. -/
def toList {D : Type} (h : Heap D) (s : SplitEnd D) : List D :=
  chainOf h s.top

/-- Embeds `SplitEnd.__len__`. -/
def length {D : Type} (s : SplitEnd D) : Nat :=
  s.count

/-- Embeds `SplitEnd.__bool__`: true iff `_top` is not the empty `MB`. -/
def toBool {D : Type} (s : SplitEnd D) : Bool :=
  s.top.isSome

/-- The `for _ in range(self._count)` walk of `SplitEnd.__eq__`; the fuel is
the number of remaining loop iterations.  `l = r` is Python `left is right`
(object identity, here address identity).  When the left walker sits on a
bottom node the walkers are not advanced, exactly as in the source; the
`none` is the raise of `right._prev.get()` on a bottom right node under a
non-bottom left node, or a dangling address (both unreachable in
well-formed lock-step walks). -/
def eqLoop {D : Type} [DecidableEq D] (h : Heap D) : Nat → Nat → Nat → Option Bool
  | 0, _, _ => some true
  | n + 1, l, r =>
    if l = r then some true
    else
      match h[l]?, h[r]? with
      | some (dl, pl), some (dr, pr) =>
        if SENode.dataEq dl dr = false then some false
        else
          match pl with
          | some pl2 =>
            match pr with
            | some pr2 => eqLoop h n pl2 pr2
            | none => none
          | none => eqLoop h n l r
      | _, _ => none

/-- Embeds `SplitEnd.__eq__`: false on differing counts, true on two empty handles,
else the lock-step walk from both tops. -/
def eq {D : Type} [DecidableEq D] (h : Heap D) (s t : SplitEnd D) : Option Bool :=
  if s.count ≠ t.count then some false
  else if s.count = 0 then some true
  else
    match s.top, t.top with
    | some l, some r => eqLoop h s.count l r
    | _, _ => none

/-- One single-value push per element, in order: `se.push(v1); ...;
se.push(vn)`. -/
def pushSeq {D : Type} (h : Heap D) (s : SplitEnd D) : List D → Heap D × SplitEnd D
  | [] => (h, s)
  | v :: vs =>
    let r := push h s [v]
    pushSeq r.1 r.2 vs

/-- The state invariant of a handle over a heap: the heap is well formed,
the top address (when present) is allocated, and `_count` equals the number
of nodes from `_top` to the chain's bottom along `prev` links — one datum
per node, so also the length of the handle's iteration. -/
def Inv {D : Type} (h : Heap D) (s : SplitEnd D) : Prop :=
  Heap.wf h = true ∧
  (∀ a, s.top = some a → a < h.length) ∧
  s.count = (toList h s).length

/-- States reachable from construction: build a handle on any well-formed
heap, apply `push` or a non-crashing `pop`, or let the shared heap grow
underneath the handle (another handle allocating nodes in the same store). -/
inductive Reachable {D : Type} : Heap D → SplitEnd D → Prop where
  | construct : ∀ (h : Heap D) (ds : List D), Heap.wf h = true →
      Reachable (init h ds).1 (init h ds).2
  | do_push : ∀ (h : Heap D) (s : SplitEnd D) (ds : List D), Reachable h s →
      Reachable (push h s ds).1 (push h s ds).2
  | do_pop : ∀ (h : Heap D) (s : SplitEnd D) (r : Option D) (s2 : SplitEnd D),
      Reachable h s → pop h s = some (r, s2) → Reachable h s2
  | grow : ∀ (h : Heap D) (s : SplitEnd D) (e : Heap D), Reachable h s →
      Heap.wf (h ++ e) = true → Reachable (h ++ e) s

end SplitEnd

theorem getElem?_some_lt {D : Type} {h : Heap D} {i : Nat} {c : D × Option Nat}
    (hm : h[i]? = some c) : i < h.length := by
  rcases List.getElem?_eq_some_iff.mp hm with ⟨hi, _⟩
  exact hi

theorem Heap.wf_iff {D : Type} {h : Heap D} : Heap.wf h = true ↔ Heap.WFp h := by
  unfold Heap.wf Heap.WFp
  rw [List.all_eq_true]
  constructor
  · intro hall i d p hm
    have hi : i < h.length := getElem?_some_lt hm
    have hthis := hall i (List.mem_range.mpr hi)
    rw [hm] at hthis
    simpa [prevOk] using hthis
  · intro hp i _
    cases hm : h[i]? with
    | none => simp
    | some c =>
      obtain ⟨d, q⟩ := c
      cases q with
      | none => simp [prevOk]
      | some p => simp [prevOk, hp i d p hm]

theorem SENode.toList_nil {D : Type} {h : Heap D} {a : Nat} (hm : h[a]? = none) :
    SENode.toList h a = [] := by
  rw [SENode.toList.eq_def, hm]

theorem SENode.toList_bottom {D : Type} {h : Heap D} {a : Nat} {d : D}
    (hm : h[a]? = some (d, none)) : SENode.toList h a = [d] := by
  rw [SENode.toList.eq_def, hm]

theorem SENode.toList_step {D : Type} {h : Heap D} {a p : Nat} {d : D}
    (hm : h[a]? = some (d, some p)) (hp : p < a) :
    SENode.toList h a = d :: SENode.toList h p := by
  rw [SENode.toList.eq_def, hm]
  simp [hp]

theorem SENode.toList_cons {D : Type} {h : Heap D} {a : Nat} {d : D} {p : Option Nat}
    (hw : Heap.WFp h) (hm : h[a]? = some (d, p)) :
    SENode.toList h a = d :: chainOf h p := by
  cases p with
  | none => rw [SENode.toList_bottom hm]; rfl
  | some q => rw [SENode.toList_step hm (hw a d q hm)]; rfl

theorem SENode.toList_append {D : Type} {h : Heap D} (e : Heap D) (hw : Heap.WFp h) :
    ∀ a, a < h.length → SENode.toList (h ++ e) a = SENode.toList h a := by
  intro a
  induction a using Nat.strong_induction_on with
  | _ a ih =>
    intro ha
    have hma : (h ++ e)[a]? = h[a]? := List.getElem?_append_left ha
    cases hm : h[a]? with
    | none => rw [SENode.toList_nil (hma.trans hm), SENode.toList_nil hm]
    | some c =>
      obtain ⟨d, p⟩ := c
      cases p with
      | none => rw [SENode.toList_bottom (hma.trans hm), SENode.toList_bottom hm]
      | some q =>
        have hq : q < a := hw a d q hm
        rw [SENode.toList_step (hma.trans hm) hq, SENode.toList_step hm hq,
          ih q hq (lt_trans hq ha)]

theorem chainOf_append {D : Type} {h : Heap D} (e : Heap D) {t : Option Nat}
    (hw : Heap.WFp h) (ht : ∀ q, t = some q → q < h.length) :
    chainOf (h ++ e) t = chainOf h t := by
  cases t with
  | none => rfl
  | some q => exact SENode.toList_append e hw q (ht q rfl)

theorem Heap.WFp_append {D : Type} {h : Heap D} {d : D} {t : Option Nat}
    (hw : Heap.WFp h) (ht : ∀ q, t = some q → q < h.length) :
    Heap.WFp (h ++ [(d, t)]) := by
  intro i di pi hm
  rcases lt_trichotomy i h.length with hi | hi | hi
  · rw [List.getElem?_append_left hi] at hm
    exact hw i di pi hm
  · subst hi
    rw [List.getElem?_concat_length] at hm
    have h1 : d = di ∧ t = some pi := by simpa using hm
    exact ht pi h1.2
  · have hlen : (h ++ [(d, t)]).length ≤ i := by
      simp only [List.length_append, List.length_cons, List.length_nil]
      omega
    rw [List.getElem?_eq_none hlen] at hm
    exact absurd hm (by simp)

theorem SENode.toList_concat {D : Type} {h : Heap D} {d : D} {t : Option Nat}
    (hw : Heap.WFp h) (ht : ∀ q, t = some q → q < h.length) :
    SENode.toList (h ++ [(d, t)]) h.length = d :: chainOf h t := by
  have hm : (h ++ [(d, t)])[h.length]? = some (d, t) := List.getElem?_concat_length h (d, t)
  rw [SENode.toList_cons (Heap.WFp_append hw ht) hm]
  congr 1
  exact chainOf_append [(d, t)] hw ht

theorem SplitEnd.pushLoop_spec {D : Type} :
    ∀ (ds : List D) (h : Heap D) (t : Option Nat) (c : Nat),
      Heap.WFp h → (∀ q, t = some q → q < h.length) →
      (∃ e, (pushLoop h t c ds).1 = h ++ e) ∧
      Heap.WFp (pushLoop h t c ds).1 ∧
      (∀ q, (pushLoop h t c ds).2.1 = some q → q < (pushLoop h t c ds).1.length) ∧
      chainOf (pushLoop h t c ds).1 (pushLoop h t c ds).2.1 = ds.reverse ++ chainOf h t ∧
      (pushLoop h t c ds).2.2 = c + ds.length := by
  intro ds
  induction ds with
  | nil =>
    intro h t c hw ht
    exact ⟨⟨[], by simp [pushLoop]⟩, hw, ht, by simp [pushLoop], by simp [pushLoop]⟩
  | cons d ds ih =>
    intro h t c hw ht
    simp only [pushLoop]
    have hw1 : Heap.WFp (h ++ [(d, t)]) := Heap.WFp_append hw ht
    have ht1 : ∀ q, (some h.length : Option Nat) = some q → q < (h ++ [(d, t)]).length := by
      intro q hq
      injection hq with hq
      subst hq
      simp
    obtain ⟨⟨e, he⟩, hw2, hval, hchain, hcount⟩ :=
      ih (h ++ [(d, t)]) (some h.length) (c + 1) hw1 ht1
    refine ⟨⟨(d, t) :: e, by rw [he, List.append_assoc]; rfl⟩, hw2, hval, ?_, ?_⟩
    · have hc : chainOf (h ++ [(d, t)]) (some h.length) = d :: chainOf h t :=
        SENode.toList_concat hw ht
      rw [hchain, hc]
      simp [List.reverse_cons, List.append_assoc]
    · rw [hcount]
      simp only [List.length_cons]
      omega

theorem SplitEnd.inv_wfp {D : Type} {h : Heap D} {s : SplitEnd D} (hs : Inv h s) :
    Heap.WFp h :=
  Heap.wf_iff.mp hs.1

theorem SplitEnd.push_spec {D : Type} {h : Heap D} {s : SplitEnd D} (ds : List D)
    (hs : Inv h s) :
    (∃ e, (push h s ds).1 = h ++ e) ∧
    Inv (push h s ds).1 (push h s ds).2 ∧
    toList (push h s ds).1 (push h s ds).2 = ds.reverse ++ toList h s ∧
    (push h s ds).2.count = s.count + ds.length := by
  obtain ⟨hwf, hval, hcnt⟩ := hs
  have hw : Heap.WFp h := Heap.wf_iff.mp hwf
  cases ds with
  | nil =>
    exact ⟨⟨[], by simp [push]⟩, ⟨hwf, hval, hcnt⟩, by simp [push], by simp [push]⟩
  | cons d ds =>
    cases hst : s.top with
    | some a0 =>
      simp only [push, hst]
      have hw1 : Heap.WFp (h ++ [(d, some a0)]) :=
        Heap.WFp_append hw (by rw [← hst]; exact hval)
      have ht1 : ∀ q, (some h.length : Option Nat) = some q →
          q < (h ++ [(d, some a0)]).length := by
        intro q hq
        injection hq with hq
        subst hq
        simp
      obtain ⟨⟨e, he⟩, hw2, hval2, hchain, hcount⟩ :=
        pushLoop_spec ds (h ++ [(d, some a0)]) (some h.length) (s.count + 1) hw1 ht1
      have hc : chainOf (h ++ [(d, some a0)]) (some h.length) = d :: chainOf h (some a0) :=
        SENode.toList_concat hw (by rw [← hst]; exact hval)
      refine ⟨⟨(d, some a0) :: e, by rw [he, List.append_assoc]; rfl⟩,
        ⟨Heap.wf_iff.mpr hw2, hval2, ?_⟩, ?_, ?_⟩
      · rw [toList, hst] at hcnt
        rw [toList, hchain, hc, hcount]
        simp only [List.length_append, List.length_reverse, List.length_cons]
        omega
      · rw [toList, toList, hchain, hc, hst]
        simp [List.reverse_cons, List.append_assoc]
      · rw [hcount]
        simp only [List.length_cons]
        omega
    | none =>
      have hc0 : s.count = 0 := by
        rw [toList, hst] at hcnt
        simpa [chainOf] using hcnt
      simp only [push, hst]
      have hw1 : Heap.WFp (h ++ [(d, none)]) :=
        Heap.WFp_append hw (by intro q hq; cases hq)
      have ht1 : ∀ q, (some h.length : Option Nat) = some q →
          q < (h ++ [(d, none)]).length := by
        intro q hq
        injection hq with hq
        subst hq
        simp
      obtain ⟨⟨e, he⟩, hw2, hval2, hchain, hcount⟩ :=
        pushLoop_spec ds (h ++ [(d, none)]) (some h.length) 1 hw1 ht1
      have hc : chainOf (h ++ [(d, none)]) (some h.length) = d :: chainOf h none :=
        SENode.toList_concat hw (by intro q hq; cases hq)
      refine ⟨⟨(d, none) :: e, by rw [he, List.append_assoc]; rfl⟩,
        ⟨Heap.wf_iff.mpr hw2, hval2, ?_⟩, ?_, ?_⟩
      · rw [toList]
        rw [hchain, hc, hcount]
        simp only [chainOf, List.length_append, List.length_reverse, List.length_cons,
          List.length_nil]
        omega
      · rw [toList, toList, hchain, hc, hst]
        simp [chainOf, List.reverse_cons, List.append_assoc]
      · rw [hcount, hc0]
        simp only [List.length_cons]
        omega

theorem SplitEnd.init_spec {D : Type} {h : Heap D} (ds : List D) (hw : Heap.wf h = true) :
    (∃ e, (init h ds).1 = h ++ e) ∧
    Inv (init h ds).1 (init h ds).2 ∧
    toList (init h ds).1 (init h ds).2 = ds.reverse ∧
    (init h ds).2.count = ds.length := by
  have hwp : Heap.WFp h := Heap.wf_iff.mp hw
  cases ds with
  | nil =>
    refine ⟨⟨[], by simp [init]⟩, ⟨hw, ?_, ?_⟩, by simp [init, toList, chainOf], by simp [init]⟩
    · intro a ha
      simp [init] at ha
    · simp [init, toList, chainOf]
  | cons d ds =>
    simp only [init]
    have hw1 : Heap.WFp (h ++ [(d, none)]) :=
      Heap.WFp_append hwp (by intro q hq; cases hq)
    have ht1 : ∀ q, (some h.length : Option Nat) = some q →
        q < (h ++ [(d, none)]).length := by
      intro q hq
      injection hq with hq
      subst hq
      simp
    obtain ⟨⟨e, he⟩, hw2, hval2, hchain, hcount⟩ :=
      pushLoop_spec ds (h ++ [(d, none)]) (some h.length) 1 hw1 ht1
    have hc : chainOf (h ++ [(d, none)]) (some h.length) = d :: chainOf h none :=
      SENode.toList_concat hwp (by intro q hq; cases hq)
    refine ⟨⟨(d, none) :: e, by rw [he, List.append_assoc]; rfl⟩,
      ⟨Heap.wf_iff.mpr hw2, hval2, ?_⟩, ?_, ?_⟩
    · rw [toList]
      rw [hchain, hc, hcount]
      simp only [chainOf, List.length_append, List.length_reverse, List.length_cons,
        List.length_nil]
      omega
    · rw [toList, hchain, hc]
      simp [chainOf, List.reverse_cons, List.append_assoc]
    · rw [hcount]
      simp only [List.length_cons]
      omega

theorem Heap.exists_cell {D : Type} {h : Heap D} {a : Nat} (ha : a < h.length) :
    ∃ d p, h[a]? = some (d, p) := by
  rcases hq : h[a]? with _ | ⟨d, p⟩
  · rw [List.getElem?_eq_none_iff] at hq
    omega
  · exact ⟨d, p, rfl⟩

theorem SplitEnd.pop_inv {D : Type} {h : Heap D} {s : SplitEnd D} {r : Option D}
    {s2 : SplitEnd D} (hs : Inv h s) (hp : pop h s = some (r, s2)) : Inv h s2 := by
  obtain ⟨hwf, hval, hcnt⟩ := hs
  have hw : Heap.WFp h := Heap.wf_iff.mp hwf
  by_cases hc : s.count > 0
  · cases hst : s.top with
    | none =>
      rw [pop, if_pos hc, hst] at hp
      cases hp
    | some a =>
      have ha : a < h.length := hval a hst
      obtain ⟨d, p, hma⟩ := Heap.exists_cell ha
      have hpop : pop h s =
          some (some d, ⟨s.count - 1, p, if s.count - 1 = 0 then p else s.root⟩) := by
        simp [pop, SENode.pop2, hst, hma, hc]
      rw [hpop] at hp
      injection hp with hp2
      injection hp2 with hr hs2
      subst hs2
      have hchain : SENode.toList h a = d :: chainOf h p := SENode.toList_cons hw hma
      refine ⟨hwf, ?_, ?_⟩
      · intro q hq2
        change p = some q at hq2
        exact lt_trans (hw a d q (hq2 ▸ hma)) ha
      · show s.count - 1 = (chainOf h p).length
        rw [toList, hst] at hcnt
        simp only [chainOf] at hcnt
        rw [hchain] at hcnt
        simp only [List.length_cons] at hcnt
        omega
  · have hc0 : s.count = 0 := by omega
    rw [pop, if_neg hc] at hp
    injection hp with hp2
    injection hp2 with hr hs2
    rw [← hs2]
    exact ⟨hwf, hval, hcnt⟩

theorem SplitEnd.reachable_inv {D : Type} {h : Heap D} {s : SplitEnd D}
    (hr : Reachable h s) : Inv h s := by
  induction hr with
  | construct h ds hw => exact (init_spec ds hw).2.1
  | do_push h s ds _ ih => exact (push_spec ds ih).2.1
  | do_pop h s r s2 _ hp ih => exact pop_inv ih hp
  | grow h s e _ hw ih =>
    obtain ⟨hwf, hval, hcnt⟩ := ih
    refine ⟨hw, ?_, ?_⟩
    · intro a ha
      exact lt_of_lt_of_le (hval a ha) (by simp)
    · rw [toList, chainOf_append e (Heap.wf_iff.mp hwf) hval]
      rw [toList] at hcnt
      exact hcnt

theorem SplitEnd.inv_count_zero_iff {D : Type} {h : Heap D} {s : SplitEnd D}
    (hs : Inv h s) : s.count = 0 ↔ s.top = none := by
  obtain ⟨hwf, hval, hcnt⟩ := hs
  constructor
  · intro h0
    cases hst : s.top with
    | none => rfl
    | some a =>
      obtain ⟨d, p, hma⟩ := Heap.exists_cell (hval a hst)
      rw [toList, hst] at hcnt
      simp only [chainOf] at hcnt
      rw [SENode.toList_cons (Heap.wf_iff.mp hwf) hma, h0] at hcnt
      simp at hcnt
  · intro h0
    rw [toList, h0] at hcnt
    simpa [chainOf] using hcnt

theorem SplitEnd.toList_grow {D : Type} {h : Heap D} {s : SplitEnd D} (e : Heap D)
    (hs : Inv h s) : toList (h ++ e) s = toList h s := by
  obtain ⟨hwf, hval, _⟩ := hs
  rw [toList, toList]
  exact chainOf_append e (Heap.wf_iff.mp hwf) hval

theorem SplitEnd.pushSeq_spec {D : Type} :
    ∀ (vs : List D) (h : Heap D) (s : SplitEnd D), Inv h s →
      Inv (pushSeq h s vs).1 (pushSeq h s vs).2 ∧
      toList (pushSeq h s vs).1 (pushSeq h s vs).2 = vs.reverse ++ toList h s := by
  intro vs
  induction vs with
  | nil =>
    intro h s hs
    exact ⟨hs, by simp [pushSeq]⟩
  | cons v vs ih =>
    intro h s hs
    simp only [pushSeq]
    obtain ⟨_, hinv, hchain, _⟩ := push_spec [v] hs
    obtain ⟨hinv2, hchain2⟩ := ih (push h s [v]).1 (push h s [v]).2 hinv
    refine ⟨hinv2, ?_⟩
    rw [hchain2, hchain]
    simp [List.append_assoc]

/-- C1: for a `SplitEnd` handle `a` in any reachable state and `b = a.copy()`,
performing `b.push(x)` leaves `a` untouched — `a`'s `_count` and `_top` fields
are values the push never writes, and the data chain `a`'s top references
denotes the same sequence (hence the same length and top datum) in the grown
node store — and the equality check `a == b` returns false. -/
theorem SplitEnd.copy_push_frame {D : Type} [DecidableEq D] {h : Heap D}
    {a : SplitEnd D} (x : D) (hr : Reachable h a) :
    toList (push h (copy h a).2 [x]).1 a = toList h a ∧
    eq (push h (copy h a).2 [x]).1 a (push h (copy h a).2 [x]).2 = some false := by
  have hinv := reachable_inv hr
  obtain ⟨hwf, hval, hcnt⟩ := hinv
  have hc0 : a.top = none → a.count = 0 := by
    intro hst
    rw [toList, hst] at hcnt
    simpa [chainOf] using hcnt
  have hheap : (push h (copy h a).2 [x]).1 = h ++ [(x, a.top)] := by
    cases hst : a.top <;> simp [push, copy, init, pushLoop, hst]
  have hcount : (push h (copy h a).2 [x]).2.count = a.count + 1 := by
    cases hst : a.top with
    | some a0 => simp [push, copy, init, pushLoop, hst]
    | none => simp [push, copy, init, pushLoop, hst, hc0 hst]
  constructor
  · rw [hheap]
    exact toList_grow [(x, a.top)] ⟨hwf, hval, hcnt⟩
  · simp only [eq, hcount]
    rw [if_pos (by omega : a.count ≠ a.count + 1)]

/-- Witness for C1 at the handle `SplitEnd(1, 2)` and pushed value 5. -/
theorem SplitEnd.copy_push_frame_witness :
    toList
        (push (init ([] : Heap Nat) [1, 2]).1
          (copy (init ([] : Heap Nat) [1, 2]).1 (init ([] : Heap Nat) [1, 2]).2).2 [5]).1
        (init ([] : Heap Nat) [1, 2]).2 =
      toList (init ([] : Heap Nat) [1, 2]).1 (init ([] : Heap Nat) [1, 2]).2 ∧
    eq
        (push (init ([] : Heap Nat) [1, 2]).1
          (copy (init ([] : Heap Nat) [1, 2]).1 (init ([] : Heap Nat) [1, 2]).2).2 [5]).1
        (init ([] : Heap Nat) [1, 2]).2
        (push (init ([] : Heap Nat) [1, 2]).1
          (copy (init ([] : Heap Nat) [1, 2]).1 (init ([] : Heap Nat) [1, 2]).2).2 [5]).2 =
      some false :=
  copy_push_frame 5 (Reachable.construct [] [1, 2] (by decide))

/-- C2: on any reachable handle, `push(x)` followed by `pop()` returns `x`
wrapped as a present `MB`, and the resulting state has the length and the
top node reference the handle had before the push. -/
theorem SplitEnd.push_pop_round_trip {D : Type} {h : Heap D} {s : SplitEnd D} (x : D)
    (hr : Reachable h s) :
    ∃ s2, pop (push h s [x]).1 (push h s [x]).2 = some (some x, s2) ∧
      s2.count = s.count ∧ s2.top = s.top := by
  obtain ⟨hwf, hval, hcnt⟩ := reachable_inv hr
  cases hst : s.top with
  | some a0 =>
    have hpush : push h s [x] =
        (h ++ [(x, some a0)], ⟨s.count + 1, some h.length, s.root⟩) := by
      simp [push, pushLoop, hst]
    refine ⟨⟨s.count, some a0, if s.count = 0 then some a0 else s.root⟩, ?_, rfl, rfl⟩
    rw [hpush]
    simp [pop, SENode.pop2, List.getElem?_concat_length]
  | none =>
    have hcz : s.count = 0 := by
      rw [toList, hst] at hcnt
      simpa [chainOf] using hcnt
    have hpush : push h s [x] = (h ++ [(x, none)], ⟨1, some h.length, some h.length⟩) := by
      simp [push, pushLoop, hst]
    refine ⟨⟨0, none, none⟩, ?_, hcz.symm, rfl⟩
    rw [hpush]
    simp [pop, SENode.pop2, List.getElem?_concat_length]

/-- Witness for C2 at the handle `SplitEnd(4)` and pushed value 9. -/
theorem SplitEnd.push_pop_round_trip_witness :
    ∃ s2,
      pop (push (init ([] : Heap Nat) [4]).1 (init ([] : Heap Nat) [4]).2 [9]).1
          (push (init ([] : Heap Nat) [4]).1 (init ([] : Heap Nat) [4]).2 [9]).2 =
        some (some 9, s2) ∧
      s2.count = (init ([] : Heap Nat) [4]).2.count ∧
      s2.top = (init ([] : Heap Nat) [4]).2.top :=
  push_pop_round_trip 9 (Reachable.construct [] [4] (by decide))

/-- C3: pushing `v1..vn` one at a time (in that order) onto an initially
empty handle makes iteration yield `vn, ..., v1`; likewise the constructor
takes its arguments oldest-first, so iteration of `SplitEnd(*ds)` yields the
arguments reversed, the last argument on top. -/
theorem SplitEnd.lifo_iteration {D : Type} {h : Heap D} (vs ds : List D)
    (hw : Heap.wf h = true) :
    toList (pushSeq (init h []).1 (init h []).2 vs).1
        (pushSeq (init h []).1 (init h []).2 vs).2 = vs.reverse ∧
    toList (init h ds).1 (init h ds).2 = ds.reverse := by
  constructor
  · have hinv : Inv (init h []).1 (init h []).2 := (init_spec [] hw).2.1
    have hseq := (pushSeq_spec vs (init h []).1 (init h []).2 hinv).2
    rw [hseq, (init_spec [] hw).2.2.1]
    simp
  · exact (init_spec ds hw).2.2.1

/-- Witness for C3 with pushes `1, 2, 3` and constructor arguments `4, 5`. -/
theorem SplitEnd.lifo_iteration_witness :
    toList (pushSeq (init ([] : Heap Nat) []).1 (init ([] : Heap Nat) []).2 [1, 2, 3]).1
        (pushSeq (init ([] : Heap Nat) []).1 (init ([] : Heap Nat) []).2 [1, 2, 3]).2 =
      [3, 2, 1] ∧
    toList (init ([] : Heap Nat) [4, 5]).1 (init ([] : Heap Nat) [4, 5]).2 = [5, 4] :=
  lifo_iteration [1, 2, 3] [4, 5] (by decide)

/-- C4, failing input: on the singleton handle `SplitEnd(5)` — non-empty,
`count == 1` — `fold(f)` with no seed does not return the fold seeded with
the top node's data (which would be `5`); it evaluates `self._prev.get()`
on the bottom node, whose `_prev` is the empty `MB`, and that `get` raises
`ValueError` (embedded here as `none`). -/
theorem SplitEnd.fold_singleton_no_seed_raises :
    foldNone (init ([] : Heap Nat) [5]).1 (fun acc d => acc + d)
      (init ([] : Heap Nat) [5]).2 = none ∧
    (init ([] : Heap Nat) [5]).2.count = 1 :=
  ⟨rfl, rfl⟩

/-- C5 counterexample: on the one-element handle `SplitEnd(7)` the
original's `_root` references the bottom node, but the handle returned by
`copy()` has the empty `MB` as `_root`, so the copy's fields are not all
identical to the original's. -/
theorem SplitEnd.copy_root_differs_cex :
    (copy (init ([] : Heap Nat) [7]).1 (init ([] : Heap Nat) [7]).2).2.root ≠
      (init ([] : Heap Nat) [7]).2.root := by
  decide

/-- C5 (amended): `copy()` allocates no nodes (the store is returned
unchanged) and yields a new handle whose `top` and `count` are identical to
the original's; the new handle's `root` is the empty reference, because
`SplitEnd.copy` assigns only `_top` and `_count` onto a freshly constructed
empty handle and never copies `_root`. -/
theorem SplitEnd.copy_spec {D : Type} (h : Heap D) (s : SplitEnd D) :
    (copy h s).1 = h ∧ (copy h s).2.top = s.top ∧ (copy h s).2.count = s.count ∧
    (copy h s).2.root = none :=
  ⟨rfl, rfl, rfl, rfl⟩

/-- C6: on an empty handle (`count == 0`), `pop()` returns the clearly
distinguishable empty `MB` without raising and leaves the state — `top`,
`root` and `count` — exactly as it was; and `push()` of zero values is a
state-preserving no-op, not an error. -/
theorem SplitEnd.empty_pop_and_empty_push_safe {D : Type} (h : Heap D) {s : SplitEnd D}
    (hc : s.count = 0) :
    pop h s = some (none, s) ∧ push h s [] = (h, s) := by
  constructor
  · simp only [pop]
    rw [if_neg (by omega)]
  · rfl

/-- Witness for C6 at the empty handle `SplitEnd()`. -/
theorem SplitEnd.empty_pop_and_empty_push_safe_witness :
    pop ([] : Heap Nat) (⟨0, none, none⟩ : SplitEnd Nat) = some (none, ⟨0, none, none⟩) ∧
      push ([] : Heap Nat) (⟨0, none, none⟩ : SplitEnd Nat) [] = ([], ⟨0, none, none⟩) :=
  empty_pop_and_empty_push_safe [] rfl

/-- C7: in every state reachable from construction by pushes and pops,
`len(handle)` equals the number of elements full iteration produces — which
is the number of nodes from `top` down to the chain's bottom along `prev`
links, each node contributing exactly one element — and `count == 0` holds
iff `top` is the empty reference. -/
theorem SplitEnd.count_invariant {D : Type} {h : Heap D} {s : SplitEnd D}
    (hr : Reachable h s) :
    length s = (toList h s).length ∧ (s.count = 0 ↔ s.top = none) := by
  have hinv := reachable_inv hr
  exact ⟨hinv.2.2, inv_count_zero_iff hinv⟩

/-- Witness for C7 after `SplitEnd(1, 2)` followed by `push(3)`. -/
theorem SplitEnd.count_invariant_witness :
    length (pushSeq (init ([] : Heap Nat) [1, 2]).1 (init ([] : Heap Nat) [1, 2]).2 [3]).2 =
      (toList (pushSeq (init ([] : Heap Nat) [1, 2]).1 (init ([] : Heap Nat) [1, 2]).2 [3]).1
        (pushSeq (init ([] : Heap Nat) [1, 2]).1 (init ([] : Heap Nat) [1, 2]).2 [3]).2).length ∧
    ((pushSeq (init ([] : Heap Nat) [1, 2]).1 (init ([] : Heap Nat) [1, 2]).2 [3]).2.count = 0 ↔
      (pushSeq (init ([] : Heap Nat) [1, 2]).1 (init ([] : Heap Nat) [1, 2]).2 [3]).2.top = none) :=
  count_invariant
    (Reachable.do_push _ _ [3] (Reachable.construct [] [1, 2] (by decide)))

/-- C9: on any reachable non-empty handle, `peak` returns the top node's
data (the head of the iteration) for every optional default, and being a
pure read it leaves the state untouched; on an empty handle it returns the
caller-supplied default when one is given and raises `ValueError`
(embedded as `none`) otherwise. -/
theorem SplitEnd.peak_spec {D : Type} {h : Heap D} {s : SplitEnd D}
    (hr : Reachable h s) :
    (0 < s.count → ∀ dflt, peak h s dflt = (toList h s).head?) ∧
    (s.count = 0 → ∀ dflt, peak h s dflt = dflt) := by
  obtain ⟨hwf, hval, hcnt⟩ := reachable_inv hr
  constructor
  · intro hpos dflt
    cases hst : s.top with
    | none =>
      have : s.count = 0 :=
        (inv_count_zero_iff ⟨hwf, hval, hcnt⟩).mpr hst
      omega
    | some a =>
      obtain ⟨d, p, hma⟩ := Heap.exists_cell (hval a hst)
      have hlist : toList h s = d :: chainOf h p := by
        rw [toList, hst]
        simpa [chainOf] using SENode.toList_cons (Heap.wf_iff.mp hwf) hma
      rw [hlist]
      simp [peak, hst, hma, show ¬s.count = 0 by omega]
  · intro h0 dflt
    cases dflt <;> simp [peak, h0]

/-- Witness for C9 at the non-empty `SplitEnd(1, 2)` with default 9. -/
theorem SplitEnd.peak_spec_witness :
    (0 < (init ([] : Heap Nat) [1, 2]).2.count → ∀ dflt,
      peak (init ([] : Heap Nat) [1, 2]).1 (init ([] : Heap Nat) [1, 2]).2 dflt =
        (toList (init ([] : Heap Nat) [1, 2]).1 (init ([] : Heap Nat) [1, 2]).2).head?) ∧
    ((init ([] : Heap Nat) [1, 2]).2.count = 0 → ∀ dflt,
      peak (init ([] : Heap Nat) [1, 2]).1 (init ([] : Heap Nat) [1, 2]).2 dflt = dflt) :=
  peak_spec (Reachable.construct [] [1, 2] (by decide))

/-- C10: the `_root` field is write-only — no operation ever reads it — so
two handles over the same store that agree on `top` and `count` but differ
in `root` produce the same results and the same post-operation `top`,
`count` and store for every operation: push, pop, peak, both fold entry
points, copy, iteration, equality (on either side), len and bool. -/
theorem SplitEnd.root_unobservable {D T : Type} [DecidableEq D] (h : Heap D)
    (c : Nat) (t : Option Nat) (r r2 : Option Nat) (ds : List D) (dflt : Option D)
    (f : T → D → T) (t0 : T) (g : D → D → D) (u : SplitEnd D) :
    (push h ⟨c, t, r⟩ ds).1 = (push h ⟨c, t, r2⟩ ds).1 ∧
    (push h ⟨c, t, r⟩ ds).2.top = (push h ⟨c, t, r2⟩ ds).2.top ∧
    (push h ⟨c, t, r⟩ ds).2.count = (push h ⟨c, t, r2⟩ ds).2.count ∧
    (pop h ⟨c, t, r⟩).map (fun p => (p.1, p.2.top, p.2.count)) =
      (pop h ⟨c, t, r2⟩).map (fun p => (p.1, p.2.top, p.2.count)) ∧
    peak h ⟨c, t, r⟩ dflt = peak h ⟨c, t, r2⟩ dflt ∧
    foldInit h f ⟨c, t, r⟩ t0 = foldInit h f ⟨c, t, r2⟩ t0 ∧
    foldNone h g ⟨c, t, r⟩ = foldNone h g ⟨c, t, r2⟩ ∧
    copy h ⟨c, t, r⟩ = copy h ⟨c, t, r2⟩ ∧
    toList h ⟨c, t, r⟩ = toList h ⟨c, t, r2⟩ ∧
    eq h ⟨c, t, r⟩ u = eq h ⟨c, t, r2⟩ u ∧
    eq h u ⟨c, t, r⟩ = eq h u ⟨c, t, r2⟩ ∧
    length (⟨c, t, r⟩ : SplitEnd D) = length (⟨c, t, r2⟩ : SplitEnd D) ∧
    toBool (⟨c, t, r⟩ : SplitEnd D) = toBool (⟨c, t, r2⟩ : SplitEnd D) := by
  refine ⟨?_, ?_, ?_, ?_, rfl, rfl, rfl, rfl, rfl, rfl, rfl, rfl, rfl⟩
  · cases ds with
    | nil => rfl
    | cons d ds => cases t <;> rfl
  · cases ds with
    | nil => rfl
    | cons d ds => cases t <;> rfl
  · cases ds with
    | nil => rfl
    | cons d ds => cases t <;> rfl
  · by_cases hc : 0 < c
    · cases t with
      | none => simp [pop, hc]
      | some a =>
        cases hq : h[a]? with
        | none => simp [pop, SENode.pop2, hc, hq]
        | some cell => simp [pop, SENode.pop2, hc, hq]
    · simp [pop, hc]

theorem SplitEnd.eqLoop_spec {D : Type} [DecidableEq D] {h : Heap D} (hw : Heap.WFp h) :
    ∀ (n l r : Nat), l < h.length → r < h.length →
      (SENode.toList h l).length = n → (SENode.toList h r).length = n →
      eqLoop h n l r = some (decide (SENode.toList h l = SENode.toList h r)) := by
  intro n
  induction n with
  | zero =>
    intro l r hl _ hll _
    obtain ⟨d, p, hm⟩ := Heap.exists_cell hl
    rw [SENode.toList_cons hw hm] at hll
    simp at hll
  | succ n ih =>
    intro l r hl hr hll hrl
    by_cases hlr : l = r
    · subst hlr
      simp [eqLoop]
    · obtain ⟨dl, pl, hml⟩ := Heap.exists_cell hl
      obtain ⟨dr, pr, hmr⟩ := Heap.exists_cell hr
      have hLl : SENode.toList h l = dl :: chainOf h pl := SENode.toList_cons hw hml
      have hLr : SENode.toList h r = dr :: chainOf h pr := SENode.toList_cons hw hmr
      by_cases hd : dl = dr
      · subst hd
        cases pl with
        | some pl2 =>
          have hn1 : (SENode.toList h pl2).length = n := by
            rw [hLl] at hll
            simpa [chainOf] using hll
          have hpl2h : pl2 < h.length := lt_trans (hw l dl pl2 hml) hl
          have hnpos : 0 < n := by
            obtain ⟨d2, p2, hm2⟩ := Heap.exists_cell hpl2h
            rw [SENode.toList_cons hw hm2] at hn1
            simp only [List.length_cons] at hn1
            omega
          cases pr with
          | none =>
            rw [hLr] at hrl
            simp [chainOf] at hrl
            omega
          | some pr2 =>
            have hpr2h : pr2 < h.length := lt_trans (hw r dl pr2 hmr) hr
            have hn2 : (SENode.toList h pr2).length = n := by
              rw [hLr] at hrl
              simpa [chainOf] using hrl
            have hstep : eqLoop h (n + 1) l r = eqLoop h n pl2 pr2 := by
              simp [eqLoop, hlr, hml, hmr, SENode.dataEq]
            rw [hstep, ih pl2 pr2 hpl2h hpr2h hn1 hn2, hLl, hLr]
            simp [chainOf]
        | none =>
          have hn0 : n = 0 := by
            rw [hLl] at hll
            simp [chainOf] at hll
            omega
          subst hn0
          have hpr_nil : chainOf h pr = [] := by
            rw [hLr] at hrl
            have : (chainOf h pr).length = 0 := by
              simp only [List.length_cons] at hrl
              omega
            exact List.length_eq_zero.mp this
          rw [hLl, hLr, hpr_nil]
          simp [eqLoop, hlr, hml, hmr, SENode.dataEq, chainOf]
      · have hstep : eqLoop h (n + 1) l r = some false := by
          simp [eqLoop, hlr, hml, hmr, SENode.dataEq, hd]
        rw [hstep, hLl, hLr]
        simp [hd]

/-- C8: for reachable handles over a common store, `SplitEnd.__eq__` never
raises and returns exactly whether the two handles hold the same data
sequence: false whenever the lengths differ, true for two empty handles,
and otherwise the verdict of the lock-step walk from both tops — which
short-circuits true on reference-identical nodes (sound, since an identical
node determines an identical remaining chain), returns false on the first
data mismatch, and returns true when element-wise data equality holds all
the way to the bottom. -/
theorem SplitEnd.eq_spec {D : Type} [DecidableEq D] {h : Heap D}
    {s t : SplitEnd D} (hs : Reachable h s) (ht : Reachable h t) :
    eq h s t = some (decide (toList h s = toList h t)) := by
  obtain ⟨hwf, hvs, hcs⟩ := reachable_inv hs
  obtain ⟨_, hvt, hct⟩ := reachable_inv ht
  have hw := Heap.wf_iff.mp hwf
  by_cases hcc : s.count = t.count
  · by_cases hc0 : s.count = 0
    · have hts : s.top = none := (inv_count_zero_iff ⟨hwf, hvs, hcs⟩).mp hc0
      have htt : t.top = none := (inv_count_zero_iff ⟨hwf, hvt, hct⟩).mp (hcc ▸ hc0)
      have h1 : eq h s t = some true := by
        simp only [eq]
        rw [if_neg (by omega), if_pos hc0]
      rw [h1, toList, toList, hts, htt]
      simp [chainOf]
    · cases hst : s.top with
      | none =>
        exact absurd ((inv_count_zero_iff ⟨hwf, hvs, hcs⟩).mpr hst) hc0
      | some l =>
        cases htt : t.top with
        | none =>
          have := (inv_count_zero_iff ⟨hwf, hvt, hct⟩).mpr htt
          omega
        | some r =>
          have hls : (SENode.toList h l).length = s.count := by
            rw [toList, hst] at hcs
            simpa [chainOf] using hcs.symm
          have hlt : (SENode.toList h r).length = s.count := by
            rw [toList, htt] at hct
            rw [hcc]
            simpa [chainOf] using hct.symm
          have h1 : eq h s t = eqLoop h s.count l r := by
            simp only [eq]
            rw [if_neg (by omega), if_neg hc0, hst, htt]
          rw [h1, eqLoop_spec hw s.count l r (hvs l hst) (hvt r htt) hls hlt]
          rw [toList, toList, hst, htt]
          simp [chainOf]
  · have hne : toList h s ≠ toList h t := by
      intro heq2
      apply hcc
      rw [hcs, hct, heq2]
    have h1 : eq h s t = some false := by
      simp only [eq]
      rw [if_pos hcc]
    rw [h1]
    simp [hne]

/-- Witness for C8 at `SplitEnd(1, 2)` compared with the shorter handle
obtained from it by one pop (both over the same store). -/
theorem SplitEnd.eq_spec_witness :
    eq (init ([] : Heap Nat) [1, 2]).1 (init ([] : Heap Nat) [1, 2]).2
        (⟨1, some 0, some 0⟩ : SplitEnd Nat) =
      some (decide
        (toList (init ([] : Heap Nat) [1, 2]).1 (init ([] : Heap Nat) [1, 2]).2 =
          toList (init ([] : Heap Nat) [1, 2]).1 (⟨1, some 0, some 0⟩ : SplitEnd Nat))) :=
  eq_spec (Reachable.construct [] [1, 2] (by decide))
    (Reachable.do_pop _ _ (some 2) ⟨1, some 0, some 0⟩
      (Reachable.construct [] [1, 2] (by decide)) (by decide))

end Splitends
